import Mathlib

/-!
Verification of the emoji-search-and-destroy core (detector + file processor).

The Go sources under `pkg/emoji` (detector and file processor) and the
stdin-processing part of the command layer are embedded shallowly:

* Go text (`string`, iterated rune by rune) is `List Char`; a Go rune is a
  `Char` and rune ranges are compared through `Char.toNat`.
* The detector's regular expression is an alternation of twenty
  single-code-point character classes, so a regex match is exactly one code
  point lying in one of those twenty ranges; `FindAllString` therefore
  returns the code points of the text that lie in the union of the ranges,
  in text order, each as a one-character string, and `ReplaceAllString`
  with the empty replacement deletes exactly those code points.
  `inEmojiPattern` is that union, in the pattern's order.
* The `allowedEmojis` map (string keys, populated once) is a
  `List (List Char)` with exact-equality membership.
* The file system is an association list from paths to file states
  (content and permission bits); `os.ReadFile`, `os.WriteFile` and
  `os.Chmod` become operations on it.  `os.WriteFile` truncates an
  existing file keeping its permission bits and creates a missing one with
  the given bits, which is why the source follows it with an explicit
  `Chmod`.
* `filepath.WalkDir` is modelled by handing `ProcessDirectory` the list of
  entries the walk visits, in traversal (depth-first, preorder) order;
  `fs.SkipDir` pruning is replayed on that list.
-/

namespace EmojiSad

/-- Models `isEmoji` from `detector.go`: the seven hard-coded rune ranges, in the
order the source tests them. -/
def isEmoji (c : Char) : Bool :=
  let n := c.toNat
  decide (0x1F600 ≤ n ∧ n ≤ 0x1F64F) ||
  decide (0x1F300 ≤ n ∧ n ≤ 0x1F5FF) ||
  decide (0x1F680 ≤ n ∧ n ≤ 0x1F6FF) ||
  decide (0x1F1E0 ≤ n ∧ n ≤ 0x1F1FF) ||
  decide (0x2600 ≤ n ∧ n ≤ 0x26FF) ||
  decide (0x2700 ≤ n ∧ n ≤ 0x27BF) ||
  decide (0x1F900 ≤ n ∧ n ≤ 0x1F9FF)

/-- The twenty ranges of `emojiPattern` in `NewDetector` (`detector.go`),
in the pattern's order.  A code point satisfies this exactly when the
detector's regular expression matches its one-character string. -/
def inEmojiPattern (c : Char) : Bool :=
  let n := c.toNat
  decide (0x1F600 ≤ n ∧ n ≤ 0x1F64F) ||
  decide (0x1F300 ≤ n ∧ n ≤ 0x1F5FF) ||
  decide (0x1F680 ≤ n ∧ n ≤ 0x1F6FF) ||
  decide (0x1F1E0 ≤ n ∧ n ≤ 0x1F1FF) ||
  decide (0x2600 ≤ n ∧ n ≤ 0x26FF) ||
  decide (0x2700 ≤ n ∧ n ≤ 0x27BF) ||
  decide (0x1F900 ≤ n ∧ n ≤ 0x1F9FF) ||
  decide (0x1F018 ≤ n ∧ n ≤ 0x1F0FF) ||
  decide (0x1F90A ≤ n ∧ n ≤ 0x1F93A) ||
  decide (0x1F940 ≤ n ∧ n ≤ 0x1F94C) ||
  decide (0x1F947 ≤ n ∧ n ≤ 0x1F978) ||
  decide (0x1F980 ≤ n ∧ n ≤ 0x1F991) ||
  decide (0x1F993 ≤ n ∧ n ≤ 0x1F9A2) ||
  decide (0x1F9A5 ≤ n ∧ n ≤ 0x1F9AA) ||
  decide (0x1F9AE ≤ n ∧ n ≤ 0x1F9CA) ||
  decide (0x1F9CD ≤ n ∧ n ≤ 0x1F9FF) ||
  decide (0x1FA70 ≤ n ∧ n ≤ 0x1FA73) ||
  decide (0x1FA78 ≤ n ∧ n ≤ 0x1FA7A) ||
  decide (0x1FA80 ≤ n ∧ n ≤ 0x1FA82) ||
  decide (0x1FA90 ≤ n ∧ n ≤ 0x1FA95)

/-- Membership in the `allowedEmojis` map of the detector (exact string
equality on the one-character emoji strings, as in `NewDetectorWithAllowed`). -/
def isAllowed (allow : List (List Char)) (s : List Char) : Bool :=
  decide (s ∈ allow)

/-- A code point lies in one of the detector's emoji ranges: the union of
the regex ranges and the `isEmoji` ranges (the latter are a subset of the
former, see `isEmoji_le_inEmojiPattern`). -/
def inEmojiRange (c : Char) : Bool :=
  isEmoji c || inEmojiPattern c

/-- A code point qualifies for removal: it lies in one of the detector's
emoji ranges and its one-character string form is not in the allow set. -/
def qualifies (allow : List (List Char)) (c : Char) : Bool :=
  inEmojiRange c && !isAllowed allow [c]

/-- Models `d.emojiRegex.FindAllString text -1`: the code points of `text` in the
pattern ranges, in text order, each as a one-character string. -/
def regexFindAll (text : List Char) : List (List Char) :=
  (text.filter inEmojiPattern).map (fun r => [r])

/-- The accumulation loop shared by both passes of `FindEmojis`
(`detector.go`): skip allowed emojis, skip emojis already seen (the `seen`
map always holds exactly the elements of the accumulated slice), append
the rest in encounter order. -/
def dedupeLoop (allow : List (List Char)) (acc : List (List Char)) :
    List (List Char) → List (List Char)
  | [] => acc
  | m :: ms =>
    if isAllowed allow m then dedupeLoop allow acc ms
    else if m ∈ acc then dedupeLoop allow acc ms
    else dedupeLoop allow (acc ++ [m]) ms

/-- Models `FindEmojis` from `detector.go`: a first pass over the regex matches,
then a second pass over the runes of the text keeping those satisfying
`isEmoji`, both feeding the same slice and `seen` map. -/
def findEmojis (allow : List (List Char)) (text : List Char) : List (List Char) :=
  let fromPattern := dedupeLoop allow [] (regexFindAll text)
  dedupeLoop allow fromPattern ((text.filter isEmoji).map (fun r => [r]))

/-- The per-rune keep decision of the allow-aware branch of `RemoveEmojis`:
an emoji rune (by range table or by regex) is kept only when allowed; any
other rune is kept. -/
def keepRune (allow : List (List Char)) (r : Char) : Bool :=
  if isEmoji r || inEmojiPattern r then isAllowed allow [r] else true

/-- The allow-aware branch of `RemoveEmojis` (`len(d.allowedEmojis) > 0`):
process rune by rune, keeping allowed emojis and every non-emoji rune. -/
def removeEmojisSelective (allow : List (List Char)) (text : List Char) : List Char :=
  text.filter (keepRune allow)

/-- The fast branch of `RemoveEmojis` (empty allow set):
`emojiRegex.ReplaceAllString text ""` deletes the runes in the pattern
ranges, then a rune scan drops the runes satisfying `isEmoji`. -/
def removeEmojisFast (text : List Char) : List Char :=
  (text.filter (fun r => !inEmojiPattern r)).filter (fun r => !isEmoji r)

/-- Models `RemoveEmojis` from `detector.go`: the allow-aware branch when the
allow set is non-empty, the fast branch otherwise. -/
def removeEmojis (allow : List (List Char)) (text : List Char) : List Char :=
  if 0 < allow.length then removeEmojisSelective allow text
  else removeEmojisFast text

/-- Byte length of a text under UTF-8, as Go's `len(string)`. -/
def byteLen (s : List Char) : Nat :=
  (s.map Char.utf8Size).sum

/-- Spec-side (from the claim's words, not from the source): the distinct
elements of a list in order of first appearance. -/
def dedupFirst (l : List (List Char)) : List (List Char) :=
  l.foldl (fun acc x => if x ∈ acc then acc else acc ++ [x]) []

/-! ## File system model and `ProcessFile` (`detector.go`, processor part) -/

/-- On-disk state of one file: its content and its permission bits. -/
structure FileState where
  content : List Char
  perm : Nat
deriving DecidableEq

/-- Models `ProcessResult` from the processor source, with the source's field
names. -/
structure ProcessResult where
  FilePath : List Char
  EmojisFound : List (List Char)
  OriginalSize : Nat
  NewSize : Nat
  Modified : Bool
deriving DecidableEq

/-- The file system: an association list from paths to file states. -/
abbrev FS := List (List Char × FileState)

/-- Models `os.ReadFile`. -/
def fsRead : FS → List Char → Option FileState
  | [], _ => none
  | (q, st) :: rest, p => if q = p then some st else fsRead rest p

/-- Models `os.WriteFile`: truncates an existing file keeping its permission
bits; creates a missing file with the given bits. -/
def fsWrite : FS → List Char → List Char → Nat → FS
  | [], p, c, perm => [(p, ⟨c, perm⟩)]
  | (q, st) :: rest, p, c, perm =>
    if q = p then (q, ⟨c, st.perm⟩) :: rest
    else (q, st) :: fsWrite rest p c perm

/-- Models `os.Chmod`: sets the permission bits of an existing file. -/
def fsChmod : FS → List Char → Nat → FS
  | [], _, _ => []
  | (q, st) :: rest, p, perm =>
    if q = p then (q, ⟨st.content, perm⟩) :: rest
    else (q, st) :: fsChmod rest p perm

/-- Models `ProcessFile` from the processor source: read the file (on failure
return a result holding only the path, plus the error), find the emojis,
and if any were found and this is not a dry run, rewrite the file with the
cleaned text and chmod it to `0600`.  The middle component is `true` when
the Go function returns a nil error. -/
def processFile (allow : List (List Char)) (fs : FS) (filePath : List Char)
    (dryRun : Bool) : ProcessResult × Bool × FS :=
  match fsRead fs filePath with
  | none => (⟨filePath, [], 0, 0, false⟩, false, fs)
  | some st =>
    let originalText := st.content
    let emojis := findEmojis allow originalText
    let result : ProcessResult :=
      ⟨filePath, emojis, byteLen originalText, 0, false⟩
    if emojis.length = 0 then (result, true, fs)
    else
      let cleanedText := removeEmojis allow originalText
      let result := { result with NewSize := byteLen cleanedText, Modified := true }
      if !dryRun then
        (result, true, fsChmod (fsWrite fs filePath cleanedText 0o600) filePath 0o600)
      else
        (result, true, fs)

/-- Models `processContentFromStdin` from `destroy.go`, applied to the content
string it assembles from stdin (lines re-joined with newlines, the added
trailing newline trimmed): empty content and emoji-free content yield no
result; otherwise one synthetic result for `<stdin>` is produced and the
cleaned content is emitted (no file is written). -/
def processContentFromStdin (allow : List (List Char)) (contentStr : List Char) :
    List ProcessResult :=
  if contentStr = [] then []
  else
    let emojis := findEmojis allow contentStr
    let result : ProcessResult :=
      ⟨"<stdin>".data, emojis, byteLen contentStr, 0, decide (0 < emojis.length)⟩
    if emojis.length = 0 then []
    else [{ result with NewSize := byteLen (removeEmojis allow contentStr) }]

/-! ## Path utilities: Go's `path/filepath` on slash-separated paths -/

/-- Models `strings.Split path "/"` (always at least one part). -/
def splitSep : List Char → List (List Char)
  | [] => [[]]
  | c :: rest =>
    if c = '/' then [] :: splitSep rest
    else
      match splitSep rest with
      | [] => [[c]]
      | e :: es => (c :: e) :: es

/-- Join path elements with the separator. -/
def joinSep : List (List Char) → List Char
  | [] => []
  | [e] => e
  | e :: es => e ++ '/' :: joinSep es

/-- One element of `filepath.Clean`'s lazy-buffer algorithm (the stack is
kept reversed, most recent element first): empty and `.` elements vanish,
`..` pops a poppable element (at the root of a rooted path it vanishes, at
the head of a relative path it accumulates), anything else is pushed. -/
def cleanStep (rooted : Bool) (stack : List (List Char)) (e : List Char) :
    List (List Char) :=
  if e = [] ∨ e = ['.'] then stack
  else if e = ['.', '.'] then
    match stack with
    | top :: rest => if top = ['.', '.'] then e :: stack else rest
    | [] => if rooted then [] else [e]
  else e :: stack

/-- Models `filepath.Clean` for slash-separated paths. -/
def goClean (path : List Char) : List Char :=
  if path = [] then ['.']
  else
    let rooted : Bool := path.head? == some '/'
    let stack := (splitSep path).foldl (cleanStep rooted) []
    let out := joinSep stack.reverse
    if rooted then '/' :: out
    else if out = [] then ['.'] else out

/-- Models `filepath.IsAbs` (Unix): the path begins with the separator. -/
def isAbs (path : List Char) : Bool :=
  path.head? == some '/'

/-- Models `filepath.Base`: strip trailing separators, keep what follows the last
separator; empty input gives `.`, an all-separator input gives `/`. -/
def base (path : List Char) : List Char :=
  if path = [] then ['.']
  else
    let p := (path.reverse.dropWhile (fun c => c == '/')).reverse
    let b := (p.reverse.takeWhile (fun c => !(c == '/'))).reverse
    if b = [] then ['/'] else b

/-- Models `filepath.Ext`: the suffix of the final element starting at its last
dot, empty when the final element has no dot. -/
def ext (path : List Char) : List Char :=
  let tailPart := (path.reverse.takeWhile (fun c => !(c == '/'))).reverse
  let afterDot := tailPart.reverse.takeWhile (fun c => !(c == '.'))
  if afterDot.length = tailPart.length then []
  else '.' :: afterDot.reverse

/-! ## `filepath.Match` (glob patterns)

Go's matcher is transcribed with explicit fuel for the non-structural
loops; every loop of the original consumes at least one character of its
pattern or its name per iteration, so fuel equal to the combined length
plus one never runs out.  `none` models a `filepath.ErrBadPattern`
result; the caller only uses `err == nil && matched`, i.e. `some true`. -/

/-- Models `getEsc`: read one (possibly backslash-escaped) character-class
character; fails on an empty chunk, a leading `-` or `]`, a dangling
escape, or when nothing follows the character (an unterminated class). -/
def getEsc : List Char → Option (Char × List Char)
  | [] => none
  | '-' :: _ => none
  | ']' :: _ => none
  | '\\' :: [] => none
  | '\\' :: c :: rest => if rest = [] then none else some (c, rest)
  | c :: rest => if rest = [] then none else some (c, rest)

/-- The range loop of `matchChunk`'s `[` case: read `lo`(-`hi`) ranges
until a closing `]` (which requires at least one range), recording whether
the rune `r` falls in any range. -/
def matchClassRanges (r : Char) : Nat → List Char → Nat → Bool →
    Option (Bool × List Char)
  | 0, _, _, _ => none
  | fuel + 1, chunk, nrange, acc =>
    match chunk, nrange with
    | ']' :: rest, Nat.succ _ => some (acc, rest)
    | chunk, _ =>
      match getEsc chunk with
      | none => none
      | some (lo, rest) =>
        match rest with
        | '-' :: rest2 =>
          match getEsc rest2 with
          | none => none
          | some (hi, rest3) =>
            matchClassRanges r fuel rest3 (nrange + 1)
              (acc || decide (lo.toNat ≤ r.toNat ∧ r.toNat ≤ hi.toNat))
        | _ =>
          matchClassRanges r fuel rest (nrange + 1)
            (acc || decide (lo.toNat ≤ r.toNat ∧ r.toNat ≤ lo.toNat))

/-- Models `matchChunk`: match a star-free chunk at the head of `s`, continuing
to parse (to surface bad patterns) after the match has already failed.
Returns the unmatched rest of `s` on success. -/
def matchChunk : Nat → List Char → List Char → Bool → Option (Bool × List Char)
  | 0, _, _, _ => none
  | fuel + 1, chunk, s, failed =>
    match chunk with
    | [] => if failed then some (false, []) else some (true, s)
    | '[' :: chunk1 =>
      let failed := failed || s.isEmpty
      let r := if failed then Char.ofNat 0 else s.headD (Char.ofNat 0)
      let s1 := if failed then s else s.tail
      let negated : Bool := chunk1.head? == some '^'
      let chunk2 := if negated then chunk1.tail else chunk1
      match matchClassRanges r (chunk2.length + 1) chunk2 0 false with
      | none => none
      | some (m, chunk3) =>
        matchChunk fuel chunk3 s1 (failed || (m == negated))
    | '?' :: chunk1 =>
      let failed := failed || s.isEmpty
      if failed then matchChunk fuel chunk1 s failed
      else matchChunk fuel chunk1 s.tail (s.headD (Char.ofNat 0) == '/')
    | '\\' :: [] => none
    | '\\' :: c :: chunk1 =>
      let failed := failed || s.isEmpty
      if failed then matchChunk fuel chunk1 s failed
      else matchChunk fuel chunk1 s.tail (!(c == s.headD (Char.ofNat 0)))
    | c :: chunk1 =>
      let failed := failed || s.isEmpty
      if failed then matchChunk fuel chunk1 s failed
      else matchChunk fuel chunk1 s.tail (!(c == s.headD (Char.ofNat 0)))

/-- Models `scanChunk`'s scan: split off the chunk up to the next `*` that is not
inside a bracket class, keeping escaped pairs together. -/
def chunkSplit : List Char → Bool → List Char × List Char
  | [], _ => ([], [])
  | '\\' :: c :: rest, inr =>
    let (a, b) := chunkSplit rest inr
    ('\\' :: c :: a, b)
  | ['\\'], _ => (['\\'], [])
  | '[' :: rest, _ =>
    let (a, b) := chunkSplit rest true
    ('[' :: a, b)
  | ']' :: rest, _ =>
    let (a, b) := chunkSplit rest false
    (']' :: a, b)
  | '*' :: rest, inr =>
    if inr then
      let (a, b) := chunkSplit rest true
      ('*' :: a, b)
    else ([], '*' :: rest)
  | c :: rest, inr =>
    let (a, b) := chunkSplit rest inr
    (c :: a, b)

/-- Models `scanChunk`: strip leading stars, then split off the next chunk. -/
def scanChunk (pattern : List Char) : Bool × List Char × List Char :=
  let star : Bool := pattern.head? == some '*'
  let p := pattern.dropWhile (fun c => c == '*')
  let (chunk, rest) := chunkSplit p false
  (star, chunk, rest)

/-- The final loop of `Match`: with no match possible, still scan the rest
of the pattern so a malformed remainder surfaces as an error. -/
def leftoverScan : Nat → List Char → Option Bool
  | 0, _ => none
  | fuel + 1, pattern =>
    if pattern = [] then some false
    else
      let (_, chunk, rest) := scanChunk pattern
      match matchChunk (chunk.length + 1) chunk [] false with
      | none => none
      | some _ => leftoverScan fuel rest

mutual

/-- The `Pattern` loop of `filepath.Match`. -/
def goMatchAux : Nat → List Char → List Char → Option Bool
  | 0, _, _ => none
  | fuel + 1, pattern, name =>
    if pattern = [] then some (decide (name = []))
    else
      let (star, chunk, rest) := scanChunk pattern
      if star && chunk.isEmpty then some (!name.contains '/')
      else
        match matchChunk (chunk.length + 1) chunk name false with
        | none => none
        | some (ok, t) =>
          if ok && (decide (t = []) || decide (rest ≠ [])) then
            goMatchAux fuel rest t
          else if star then starSearch fuel chunk rest name
          else leftoverScan (rest.length + 1) rest

/-- The star-backtracking loop of `filepath.Match`: skip one
non-separator character of the name at a time and retry the chunk. -/
def starSearch : Nat → List Char → List Char → List Char → Option Bool
  | 0, _, _, _ => none
  | fuel + 1, chunk, rest, name =>
    match name with
    | [] => leftoverScan (rest.length + 1) rest
    | c :: name1 =>
      if c = '/' then leftoverScan (rest.length + 1) rest
      else
        match matchChunk (chunk.length + 1) chunk name1 false with
        | none => none
        | some (ok, t) =>
          if ok then
            if rest = [] && t ≠ [] then starSearch fuel chunk rest name1
            else goMatchAux fuel rest t
          else starSearch fuel chunk rest name1

end

/-- Models `filepath.Match pattern name`: `some matched` on a well-formed
pattern, `none` for `ErrBadPattern`. -/
def goMatch (pattern name : List Char) : Option Bool :=
  goMatchAux (pattern.length + name.length + 1) pattern name

/-! ## Exclusion matching (`matchExclude` / `isExcluded`) -/

/-- Models `matchExclude` from the processor source: clean both strings, then in
order test exact equality; absolute-pattern prefix (and nothing else for
absolute patterns); path-segment equality; separator-plus-pattern suffix
or basename equality; and, for patterns holding a glob metacharacter, a
glob match against the full path or against the basename (`err == nil &&
matched`). -/
def matchExclude (path0 pattern0 : List Char) : Bool :=
  let path := goClean path0
  let pattern := goClean pattern0
  if path == pattern then true
  else if isAbs pattern then
    (pattern ++ ['/']).isPrefixOf path || path == pattern
  else if (splitSep path).contains pattern then true
  else if ('/' :: pattern).isSuffixOf path || base path == pattern then true
  else if pattern.contains '*' || pattern.contains '?' then
    goMatch pattern path == some true || goMatch pattern (base path) == some true
  else false

/-- Models `isExcluded` from the processor source: first matching pattern wins. -/
def isExcluded : List (List Char) → List Char → Bool
  | [], _ => false
  | e :: rest, path => if matchExclude path e then true else isExcluded rest path

/-- Spec-side (from claim C6's words, for normalized inputs): equality; or
an absolute pattern that the path equals or descends from; or a relative
pattern equal to some path segment, or to the basename, or (with a glob
metacharacter) glob-matching the full path or the basename. -/
def matchSpec (path pattern : List Char) : Bool :=
  (path == pattern) ||
  (isAbs pattern && (pattern ++ ['/']).isPrefixOf path) ||
  (!isAbs pattern &&
    ((splitSep path).contains pattern ||
     base path == pattern ||
     ((pattern.contains '*' || pattern.contains '?') &&
       (goMatch pattern path == some true ||
        goMatch pattern (base path) == some true))))

/-- Spec-side, amended: the code additionally matches a relative pattern
that is a separator-delimited suffix of the path (a multi-segment
pattern such as `b/c` against `a/b/c`), which claim C6's enumeration is
missing. -/
def matchSpecAmended (path pattern : List Char) : Bool :=
  (path == pattern) ||
  (isAbs pattern && (pattern ++ ['/']).isPrefixOf path) ||
  (!isAbs pattern &&
    ((splitSep path).contains pattern ||
     ('/' :: pattern).isSuffixOf path ||
     base path == pattern ||
     ((pattern.contains '*' || pattern.contains '?') &&
       (goMatch pattern path == some true ||
        goMatch pattern (base path) == some true))))

/-! ## Directory walk (`ProcessDirectory`) -/

/-- One entry visited by `filepath.WalkDir`, in traversal order: its path
as the walk reports it (the root joined with the entry names, so a walk
rooted at `.` yields paths with no leading `./`), whether it is a
directory, whether `Stat` reports a regular file, and — for files — the
content `os.ReadFile` returns during the walk. -/
structure WalkEntry where
  path : List Char
  isDir : Bool
  regular : Bool
  content : List Char
deriving DecidableEq

/-- The fixed extension denylist of `shouldSkipFile`. -/
def skipExtensions (e : List Char) : Bool :=
  decide (e ∈ [".exe".data, ".bin".data, ".so".data, ".dll".data,
    ".jpg".data, ".jpeg".data, ".png".data, ".gif".data, ".bmp".data,
    ".mp3".data, ".mp4".data, ".avi".data, ".mov".data,
    ".zip".data, ".tar".data, ".gz".data, ".7z".data,
    ".pdf".data, ".sock".data])

/-- Models `shouldSkipFile`: skip non-regular files and denylisted extensions
(entries the walk yields exist, so the `Stat` call succeeds). -/
def shouldSkipFile (e : WalkEntry) : Bool :=
  if !e.regular then true else skipExtensions (ext e.path)

/-- Models `strings.Contains hay needle`: the needle occurs as a contiguous
substring. -/
def containsSub (needle : List Char) : List Char → Bool
  | [] => needle.isEmpty
  | c :: rest => needle.isPrefixOf (c :: rest) || containsSub needle rest

/-- The VCS check of `ProcessDirectory`: a substring test for `/.git/`,
`/.svn/` or `/.hg/` on the walk path. -/
def containsVCS (p : List Char) : Bool :=
  containsSub "/.git/".data p || containsSub "/.svn/".data p ||
    containsSub "/.hg/".data p

/-- The `ProcessResult` that `ProcessFile` builds for a file whose read
succeeds with `content` (the walk aborts on errors, and a dry-run walk
performs no writes, so each visited file is read exactly once with the
content its entry carries). -/
def fileResult (allow : List (List Char)) (path content : List Char) :
    ProcessResult :=
  let emojis := findEmojis allow content
  if emojis.length = 0 then ⟨path, emojis, byteLen content, 0, false⟩
  else ⟨path, emojis, byteLen content, byteLen (removeEmojis allow content), true⟩

/-- The walk callback of `ProcessDirectory`, replayed over the visit list:
excluded directories prune their subtree (`fs.SkipDir`), excluded files
and directories yield nothing, then the VCS substring check and the
eligibility policy run, and a processed file is reported only when emojis
were found.  `pruned` collects the excluded directories whose subtrees
`WalkDir` no longer visits. -/
def processDirectoryAux (excludes allow : List (List Char)) :
    List WalkEntry → List (List Char) → List ProcessResult
  | [], _ => []
  | e :: rest, pruned =>
    if pruned.any (fun d => (d ++ ['/']).isPrefixOf e.path) then
      processDirectoryAux excludes allow rest pruned
    else if isExcluded excludes e.path then
      if e.isDir then processDirectoryAux excludes allow rest (e.path :: pruned)
      else processDirectoryAux excludes allow rest pruned
    else if e.isDir then processDirectoryAux excludes allow rest pruned
    else if containsVCS e.path then processDirectoryAux excludes allow rest pruned
    else if shouldSkipFile e then processDirectoryAux excludes allow rest pruned
    else
      let result := fileResult allow e.path e.content
      if 0 < result.EmojisFound.length then
        result :: processDirectoryAux excludes allow rest pruned
      else processDirectoryAux excludes allow rest pruned

/-- Models `ProcessDirectory` on the entry list its walk visits. -/
def processDirectory (excludes allow : List (List Char))
    (entries : List WalkEntry) : List ProcessResult :=
  processDirectoryAux excludes allow entries []

/-! ## Theorems -/

example : findEmojis [] "Hi 😊 world 😊 again 🚀".data = ["😊".data, "🚀".data] := by decide

example : removeEmojis [] "Hi 😊!".data = "Hi !".data := by decide

example : removeEmojis ["✅".data] "Go ✅ now 🚀".data = "Go ✅ now ".data := by decide

example : findEmojis ["✅".data] "Go ✅ now 🚀".data = ["🚀".data] := by decide

/-- The seven `isEmoji` ranges are all among the twenty pattern ranges. -/
theorem isEmoji_le_inEmojiPattern (c : Char) (h : isEmoji c = true) :
    inEmojiPattern c = true := by
  simp only [isEmoji, inEmojiPattern, Bool.or_eq_true, decide_eq_true_eq] at h ⊢
  omega

/-- The union of the range-table test and the regex test is just the regex
test. -/
theorem inEmojiRange_eq_inEmojiPattern (c : Char) :
    inEmojiRange c = inEmojiPattern c := by
  cases h : isEmoji c with
  | false => simp [inEmojiRange, h]
  | true => simp [inEmojiRange, h, isEmoji_le_inEmojiPattern c h]

/-- The keep decision of the allow-aware branch keeps exactly the
non-qualifying runes. -/
theorem keepRune_eq_not_qualifies (allow : List (List Char)) (r : Char) :
    keepRune allow r = !qualifies allow r := by
  simp only [keepRune, qualifies, inEmojiRange]
  cases h : (isEmoji r || inEmojiPattern r) <;> simp [h]

/-- Models `RemoveEmojis` is, on both of its branches, the filter that keeps
exactly the non-qualifying code points. -/
theorem removeEmojis_eq_filter (allow : List (List Char)) (text : List Char) :
    removeEmojis allow text = text.filter (fun r => !qualifies allow r) := by
  by_cases h : 0 < allow.length
  · simp only [removeEmojis, h, if_true, removeEmojisSelective]
    exact List.filter_congr fun r _ => keepRune_eq_not_qualifies allow r
  · have hnil : allow = [] := by
      cases allow with
      | nil => rfl
      | cons a l => simp at h
    subst hnil
    simp only [removeEmojis, h, if_false, removeEmojisFast, List.filter_filter]
    refine List.filter_congr fun r _ => ?_
    simp only [qualifies, inEmojiRange, isAllowed]
    cases h1 : isEmoji r <;> cases h2 : inEmojiPattern r <;> simp [h1, h2]

/-- Elements already accumulated survive the dedupe loop. -/
theorem dedupeLoop_mem_of_mem_acc (allow : List (List Char))
    (l : List (List Char)) (acc : List (List Char)) (x : List Char)
    (h : x ∈ acc) : x ∈ dedupeLoop allow acc l := by
  induction l generalizing acc with
  | nil => simpa [dedupeLoop] using h
  | cons m ms ih =>
    by_cases h1 : isAllowed allow m = true
    · simpa [dedupeLoop, h1] using ih acc h
    · by_cases h2 : m ∈ acc
      · simpa [dedupeLoop, h1, h2] using ih acc h
      · simpa [dedupeLoop, h1, h2] using ih (acc ++ [m]) (by simp [h])

/-- A non-allowed element of the candidate list ends up in the result of
the dedupe loop. -/
theorem dedupeLoop_mem_of_mem (allow : List (List Char))
    (l : List (List Char)) (acc : List (List Char)) (x : List Char)
    (hx : x ∈ l) (hal : isAllowed allow x = false) :
    x ∈ dedupeLoop allow acc l := by
  induction l generalizing acc with
  | nil => simp at hx
  | cons m ms ih =>
    rcases List.mem_cons.mp hx with rfl | hx'
    · by_cases h2 : x ∈ acc
      · simpa [dedupeLoop, hal, h2] using dedupeLoop_mem_of_mem_acc allow ms acc x h2
      · simpa [dedupeLoop, hal, h2] using
          dedupeLoop_mem_of_mem_acc allow ms (acc ++ [x]) x (by simp)
    · by_cases h1 : isAllowed allow m = true
      · simpa [dedupeLoop, h1] using ih acc hx'
      · by_cases h2 : m ∈ acc
        · simpa [dedupeLoop, h1, h2] using ih acc hx'
        · simpa [dedupeLoop, h1, h2] using ih (acc ++ [m]) hx'

/-- Everything the dedupe loop returns came from the accumulator or is a
non-allowed element of the candidate list. -/
theorem mem_of_mem_dedupeLoop (allow : List (List Char))
    (l : List (List Char)) (acc : List (List Char)) (x : List Char)
    (h : x ∈ dedupeLoop allow acc l) :
    x ∈ acc ∨ (x ∈ l ∧ isAllowed allow x = false) := by
  induction l generalizing acc with
  | nil => exact Or.inl (by simpa [dedupeLoop] using h)
  | cons m ms ih =>
    by_cases h1 : isAllowed allow m = true
    · simp only [dedupeLoop, h1, if_true] at h
      rcases ih acc h with h' | ⟨h', hal⟩
      · exact Or.inl h'
      · exact Or.inr ⟨List.mem_cons_of_mem m h', hal⟩
    · by_cases h2 : m ∈ acc
      · simp only [dedupeLoop, h1, h2, if_true, if_false, Bool.false_eq_true] at h
        rcases ih acc h with h' | ⟨h', hal⟩
        · exact Or.inl h'
        · exact Or.inr ⟨List.mem_cons_of_mem m h', hal⟩
      · simp only [dedupeLoop, h1, h2, if_true, if_false, Bool.false_eq_true] at h
        rcases ih (acc ++ [m]) h with h' | ⟨h', hal⟩
        · rcases List.mem_append.mp h' with h'' | h''
          · exact Or.inl h''
          · simp only [List.mem_singleton] at h''
            rw [h'']
            exact Or.inr ⟨List.mem_cons_self m ms, by simpa using h1⟩
        · exact Or.inr ⟨List.mem_cons_of_mem m h', hal⟩

/-- If every candidate is either allowed or already accumulated, the
dedupe loop is a no-op. -/
theorem dedupeLoop_eq_acc (allow : List (List Char))
    (l : List (List Char)) (acc : List (List Char))
    (h : ∀ x ∈ l, isAllowed allow x = true ∨ x ∈ acc) :
    dedupeLoop allow acc l = acc := by
  induction l with
  | nil => rfl
  | cons m ms ih =>
    rcases h m (List.mem_cons_self m ms) with h1 | h2
    · simpa [dedupeLoop, h1] using ih fun x hx => h x (List.mem_cons_of_mem m hx)
    · by_cases h1 : isAllowed allow m = true
      · simpa [dedupeLoop, h1] using ih fun x hx => h x (List.mem_cons_of_mem m hx)
      · simpa [dedupeLoop, h1, h2] using ih fun x hx => h x (List.mem_cons_of_mem m hx)

/-- The dedupe loop is the first-occurrence fold over the non-allowed
candidates. -/
theorem dedupeLoop_eq_foldl (allow : List (List Char))
    (l : List (List Char)) (acc : List (List Char)) :
    dedupeLoop allow acc l =
      (l.filter (fun m => !isAllowed allow m)).foldl
        (fun acc x => if x ∈ acc then acc else acc ++ [x]) acc := by
  induction l generalizing acc with
  | nil => rfl
  | cons m ms ih =>
    by_cases h1 : isAllowed allow m = true
    · simp [dedupeLoop, h1, ih]
    · have h1' : isAllowed allow m = false := by simpa using h1
      by_cases h2 : m ∈ acc
      · simp [dedupeLoop, h1', h2, ih]
      · simp [dedupeLoop, h1', h2, ih]

/-- Filtering a list of singleton strings built from filtered runes fuses
into a single rune-level filter. -/
theorem filter_map_singleton (q : Char → Bool) (p : List Char → Bool)
    (text : List Char) :
    ((text.filter q).map (fun r => [r])).filter p =
      (text.filter (fun r => q r && p [r])).map (fun r => [r]) := by
  induction text with
  | nil => rfl
  | cons c cs ih =>
    by_cases hq : q c = true
    · by_cases hp : p [c] = true
      · simp [hq, hp, ih]
      · have hp' : p [c] = false := by simpa using hp
        simp [hq, hp', ih]
    · have hq' : q c = false := by simpa using hq
      simp [hq', ih]

/-- Models `FindEmojis` computes the first-occurrence deduplication of the
qualifying code points: the second (range-table) pass adds nothing because
its ranges are a subset of the regex ranges already swept by the first
pass. -/
theorem findEmojis_eq_dedupFirst (allow : List (List Char)) (text : List Char) :
    findEmojis allow text =
      dedupFirst ((text.filter (qualifies allow)).map (fun r => [r])) := by
  have hlist : (regexFindAll text).filter (fun m => !isAllowed allow m) =
      (text.filter (qualifies allow)).map (fun r => [r]) := by
    rw [regexFindAll, filter_map_singleton]
    congr 1
    refine List.filter_congr fun r _ => ?_
    simp [qualifies, inEmojiRange_eq_inEmojiPattern]
  simp only [findEmojis]
  rw [dedupeLoop_eq_acc]
  · rw [dedupeLoop_eq_foldl, hlist]
    rfl
  · intro x hx
    rcases List.mem_map.mp hx with ⟨r, hr, rfl⟩
    rcases List.mem_filter.mp hr with ⟨hrt, hre⟩
    by_cases hal : isAllowed allow [r] = true
    · exact Or.inl hal
    · refine Or.inr (dedupeLoop_mem_of_mem allow _ _ _ ?_ (by simpa using hal))
      exact List.mem_map.mpr
        ⟨r, List.mem_filter.mpr ⟨hrt, isEmoji_le_inEmojiPattern r hre⟩, rfl⟩

/-- C1: for every text and allow set, `RemoveEmojis` returns a sublist of
the input (deletion only, no substitution character inserted), keeps the
non-qualifying code points verbatim in their relative order, preserves
their count, and its output consists of non-qualifying code points only. -/
theorem removeEmojis_preserves_nonqualifying (allow : List (List Char))
    (text : List Char) :
    List.Sublist (removeEmojis allow text) text ∧
    (removeEmojis allow text).filter (fun r => !qualifies allow r) =
      text.filter (fun r => !qualifies allow r) ∧
    (removeEmojis allow text).countP (fun r => !qualifies allow r) =
      text.countP (fun r => !qualifies allow r) ∧
    (removeEmojis allow text).all (fun r => !qualifies allow r) = true := by
  rw [removeEmojis_eq_filter]
  have hff : (text.filter (fun r => !qualifies allow r)).filter
      (fun r => !qualifies allow r) = text.filter (fun r => !qualifies allow r) := by
    rw [List.filter_filter]
    simp [Bool.and_self]
  refine ⟨List.filter_sublist _, hff, ?_, ?_⟩
  · simp only [List.countP_eq_length_filter, hff]
  · rw [List.all_eq_true]
    intro x hx
    exact (List.mem_filter.mp hx).2

/-- C2: `RemoveEmojis` is idempotent for every allow set and text. -/
theorem removeEmojis_idempotent (allow : List (List Char)) (x : List Char) :
    removeEmojis allow (removeEmojis allow x) = removeEmojis allow x := by
  simp only [removeEmojis_eq_filter, List.filter_filter]
  simp [Bool.and_self]

/-- C3: an allowed code point is never deleted by `RemoveEmojis` (its
occurrence count is unchanged) and never reported by `FindEmojis`. -/
theorem allowlist_exemption (allow : List (List Char)) (text : List Char)
    (e : Char) (h : [e] ∈ allow) :
    (removeEmojis allow text).count e = text.count e ∧
    [e] ∉ findEmojis allow text := by
  have hq : (!qualifies allow e) = true := by
    simp [qualifies, isAllowed, h]
  constructor
  · rw [removeEmojis_eq_filter]
    exact List.count_filter hq
  · intro hmem
    simp only [findEmojis] at hmem
    rcases mem_of_mem_dedupeLoop _ _ _ _ hmem with h1 | ⟨_, hal⟩
    · rcases mem_of_mem_dedupeLoop _ _ _ _ h1 with h2 | ⟨_, hal⟩
      · simp at h2
      · simp [isAllowed, h] at hal
    · simp [isAllowed, h] at hal

/-- Witness for C3 at the allow set {✅} and the text "a✅🚀". -/
theorem allowlist_exemption_witness :
    ['✅'] ∈ [['✅']] ∧
    ((removeEmojis [['✅']] "a✅🚀".data).count '✅' = "a✅🚀".data.count '✅' ∧
      ['✅'] ∉ findEmojis [['✅']] "a✅🚀".data) :=
  ⟨by decide, allowlist_exemption [['✅']] "a✅🚀".data '✅' (by decide)⟩

/-- C4: `FindEmojis` returns exactly the distinct qualifying
single-code-point graphemes in order of first appearance; duplicates
contribute once, a text with no qualifying code point (in particular the
empty text) yields the empty sequence, and the function is total. -/
theorem findEmojis_distinct_first_occurrence (allow : List (List Char))
    (text : List Char) :
    findEmojis allow text =
      dedupFirst ((text.filter (qualifies allow)).map (fun r => [r])) :=
  findEmojis_eq_dedupFirst allow text

/-- C9: with an empty allow set the pattern-substitution branch of
`RemoveEmojis` (regex replacement, then the `isEmoji` filter) agrees with
the per-code-point branch on every text. -/
theorem fast_branch_eq_selective (text : List Char) :
    removeEmojisFast text = removeEmojisSelective [] text := by
  unfold removeEmojisFast removeEmojisSelective
  rw [List.filter_filter]
  refine List.filter_congr fun r _ => ?_
  rw [keepRune_eq_not_qualifies]
  simp only [qualifies, inEmojiRange, isAllowed]
  cases h1 : isEmoji r <;> cases h2 : inEmojiPattern r <;> simp [h1, h2]

theorem fsRead_fsWrite_self (fs : FS) (p c : List Char) (m : Nat)
    (st : FileState) (h : fsRead fs p = some st) :
    fsRead (fsWrite fs p c m) p = some ⟨c, st.perm⟩ := by
  induction fs with
  | nil => simp [fsRead] at h
  | cons e rest ih =>
    obtain ⟨q, st'⟩ := e
    by_cases hqp : q = p
    · simp only [fsRead, hqp, if_true] at h
      injection h with h'
      subst h'
      simp [fsWrite, hqp, fsRead]
    · simp only [fsRead, hqp, if_false] at h
      simp only [fsWrite, hqp, if_false, fsRead]
      exact ih h

theorem fsRead_fsWrite_ne (fs : FS) (p q c : List Char) (m : Nat)
    (h : q ≠ p) : fsRead (fsWrite fs p c m) q = fsRead fs q := by
  have h' : ¬ p = q := fun e => h e.symm
  induction fs with
  | nil => simp [fsWrite, fsRead, h']
  | cons e rest ih =>
    obtain ⟨q', st'⟩ := e
    by_cases hq'p : q' = p
    · subst hq'p
      simp [fsWrite, fsRead, h']
    · simp [fsWrite, fsRead, hq'p, ih]

theorem fsRead_fsChmod_self (fs : FS) (p : List Char) (m : Nat)
    (st : FileState) (h : fsRead fs p = some st) :
    fsRead (fsChmod fs p m) p = some ⟨st.content, m⟩ := by
  induction fs with
  | nil => simp [fsRead] at h
  | cons e rest ih =>
    obtain ⟨q, st'⟩ := e
    by_cases hqp : q = p
    · simp only [fsRead, hqp, if_true] at h
      injection h with h'
      subst h'
      simp [fsChmod, hqp, fsRead]
    · simp only [fsRead, hqp, if_false] at h
      simp only [fsChmod, hqp, if_false, fsRead]
      exact ih h

theorem fsRead_fsChmod_ne (fs : FS) (p q : List Char) (m : Nat)
    (h : q ≠ p) : fsRead (fsChmod fs p m) q = fsRead fs q := by
  have h' : ¬ p = q := fun e => h e.symm
  induction fs with
  | nil => rfl
  | cons e rest ih =>
    obtain ⟨q', st'⟩ := e
    by_cases hq'p : q' = p
    · subst hq'p
      simp [fsChmod, fsRead, h']
    · simp [fsChmod, fsRead, hq'p, ih]

/-- A non-empty `FindEmojis` result exhibits a qualifying code point in
the text. -/
theorem findEmojis_ne_nil_exists (allow : List (List Char)) (text : List Char)
    (h : findEmojis allow text ≠ []) :
    ∃ r ∈ text, qualifies allow r = true := by
  by_contra hno
  push_neg at hno
  have hfil : text.filter (qualifies allow) = [] := by
    rw [List.filter_eq_nil_iff]
    intro a ha
    simpa using hno a ha
  rw [findEmojis_eq_dedupFirst, hfil] at h
  simp [dedupFirst] at h

/-- When emojis are found, removal strictly shrinks the text. -/
theorem removeEmojis_length_lt (allow : List (List Char)) (text : List Char)
    (h : findEmojis allow text ≠ []) :
    (removeEmojis allow text).length < text.length := by
  rcases findEmojis_ne_nil_exists allow text h with ⟨r, hr, hq⟩
  rw [removeEmojis_eq_filter]
  rw [List.length_filter_lt_length_iff_exists]
  exact ⟨r, hr, by simp [hq]⟩

/-- C7: `ProcessFile` writes exactly when preview is off and emojis were
found: with no emojis found no write occurs regardless of the preview
flag, in preview mode the file system is untouched, and when a write does
occur the file holds the cleaned text with permission `0600` whatever its
prior bits, every other file being untouched. -/
theorem processFile_write_iff (allow : List (List Char)) (fs : FS)
    (path : List Char) (dryRun : Bool) (st : FileState)
    (hread : fsRead fs path = some st) :
    (findEmojis allow st.content = [] →
      (processFile allow fs path dryRun).2.2 = fs) ∧
    (dryRun = true → (processFile allow fs path dryRun).2.2 = fs) ∧
    (dryRun = false → findEmojis allow st.content ≠ [] →
      (processFile allow fs path dryRun).2.2 ≠ fs ∧
      fsRead (processFile allow fs path dryRun).2.2 path =
        some ⟨removeEmojis allow st.content, 0o600⟩ ∧
      ∀ q, q ≠ path →
        fsRead (processFile allow fs path dryRun).2.2 q = fsRead fs q) := by
  refine ⟨?_, ?_, ?_⟩
  · intro hE
    simp [processFile, hread, hE]
  · rintro rfl
    by_cases hE : findEmojis allow st.content = []
    · simp [processFile, hread, hE]
    · have hlen : (findEmojis allow st.content).length ≠ 0 := by
        simpa [List.length_eq_zero] using hE
      simp [processFile, hread, hlen]
  · rintro rfl hE
    have hlen : (findEmojis allow st.content).length ≠ 0 := by
      simpa [List.length_eq_zero] using hE
    have hfs' : (processFile allow fs path false).2.2 =
        fsChmod (fsWrite fs path (removeEmojis allow st.content) 0o600) path 0o600 := by
      simp [processFile, hread, hlen]
    have hwr : fsRead (fsWrite fs path (removeEmojis allow st.content) 0o600) path
        = some ⟨removeEmojis allow st.content, st.perm⟩ :=
      fsRead_fsWrite_self fs path _ _ st hread
    have hrd : fsRead (processFile allow fs path false).2.2 path =
        some ⟨removeEmojis allow st.content, 0o600⟩ := by
      rw [hfs']
      simpa using fsRead_fsChmod_self _ path 0o600 _ hwr
    refine ⟨?_, hrd, ?_⟩
    · intro hEq
      rw [hEq, hread] at hrd
      injection hrd with h'
      have hc : st.content = removeEmojis allow st.content :=
        congrArg FileState.content h'
      have hlt := removeEmojis_length_lt allow st.content hE
      rw [← hc] at hlt
      exact lt_irrefl _ hlt
    · intro q hq
      rw [hfs', fsRead_fsChmod_ne _ _ _ _ hq, fsRead_fsWrite_ne _ _ _ _ _ hq]

/-- Witness for C7 at a one-file file system holding an emoji, preview
off. -/
theorem processFile_write_iff_witness :
    fsRead [("a".data, ⟨"😊".data, 0o644⟩)] "a".data = some ⟨"😊".data, 0o644⟩ ∧
    ((findEmojis [] "😊".data = [] →
        (processFile [] [("a".data, ⟨"😊".data, 0o644⟩)] "a".data false).2.2 =
          [("a".data, ⟨"😊".data, 0o644⟩)]) ∧
      (false = true →
        (processFile [] [("a".data, ⟨"😊".data, 0o644⟩)] "a".data false).2.2 =
          [("a".data, ⟨"😊".data, 0o644⟩)]) ∧
      (false = false → findEmojis [] "😊".data ≠ [] →
        (processFile [] [("a".data, ⟨"😊".data, 0o644⟩)] "a".data false).2.2 ≠
          [("a".data, ⟨"😊".data, 0o644⟩)] ∧
        fsRead (processFile [] [("a".data, ⟨"😊".data, 0o644⟩)] "a".data false).2.2
            "a".data = some ⟨removeEmojis [] "😊".data, 0o600⟩ ∧
        ∀ q, q ≠ "a".data →
          fsRead (processFile [] [("a".data, ⟨"😊".data, 0o644⟩)] "a".data false).2.2 q =
            fsRead [("a".data, ⟨"😊".data, 0o644⟩)] q)) :=
  ⟨by decide, processFile_write_iff [] [("a".data, ⟨"😊".data, 0o644⟩)] "a".data false
    ⟨"😊".data, 0o644⟩ (by decide)⟩

/-- C8: every produced `ProcessResult` satisfies the invariant: `Modified`
is false exactly when `EmojisFound` is empty, and a non-empty
`EmojisFound` comes with `Modified = true` and `NewSize` equal to the
byte length of the cleaned text — for `ProcessFile` (even in preview
mode) and for the synthetic stdin result alike. -/
theorem processResult_invariant (allow : List (List Char)) (fs : FS)
    (path : List Char) (dryRun : Bool) (contentStr : List Char) :
    ((processFile allow fs path dryRun).1.Modified = false ↔
      (processFile allow fs path dryRun).1.EmojisFound = []) ∧
    (∀ st, fsRead fs path = some st →
      (processFile allow fs path dryRun).1.EmojisFound ≠ [] →
      (processFile allow fs path dryRun).1.Modified = true ∧
      (processFile allow fs path dryRun).1.NewSize =
        byteLen (removeEmojis allow st.content)) ∧
    (∀ r ∈ processContentFromStdin allow contentStr,
      r.Modified = true ∧ r.EmojisFound ≠ [] ∧
      r.NewSize = byteLen (removeEmojis allow contentStr)) := by
  refine ⟨?_, ?_, ?_⟩
  · cases hr : fsRead fs path with
    | none => simp [processFile, hr]
    | some st =>
      by_cases hE : findEmojis allow st.content = []
      · simp [processFile, hr, hE]
      · have hlen : (findEmojis allow st.content).length ≠ 0 := by
          simpa [List.length_eq_zero] using hE
        cases dryRun <;> simp [processFile, hr, hlen, hE]
  · intro st hst hne
    by_cases hE : findEmojis allow st.content = []
    · exact absurd (by simp [processFile, hst, hE]) hne
    · have hlen : (findEmojis allow st.content).length ≠ 0 := by
        simpa [List.length_eq_zero] using hE
      cases dryRun <;> simp [processFile, hst, hlen]
  · intro r hr
    by_cases hc : contentStr = []
    · simp [processContentFromStdin, hc] at hr
    · by_cases hE : findEmojis allow contentStr = []
      · simp [processContentFromStdin, hc, hE] at hr
      · have hlen : (findEmojis allow contentStr).length ≠ 0 := by
          simpa [List.length_eq_zero] using hE
        simp only [processContentFromStdin, hc, hlen, if_false, List.mem_singleton] at hr
        subst hr
        refine ⟨by simp [Nat.pos_of_ne_zero hlen], hE, rfl⟩

/-- Witness for C8 at a one-file file system and a concrete stdin
content, both holding emojis. -/
theorem processResult_invariant_witness :
    (((processFile [] [("a".data, ⟨"😊".data, 0⟩)] "a".data true).1.Modified = false ↔
      (processFile [] [("a".data, ⟨"😊".data, 0⟩)] "a".data true).1.EmojisFound = []) ∧
    (∀ st, fsRead [("a".data, ⟨"😊".data, 0⟩)] "a".data = some st →
      (processFile [] [("a".data, ⟨"😊".data, 0⟩)] "a".data true).1.EmojisFound ≠ [] →
      (processFile [] [("a".data, ⟨"😊".data, 0⟩)] "a".data true).1.Modified = true ∧
      (processFile [] [("a".data, ⟨"😊".data, 0⟩)] "a".data true).1.NewSize =
        byteLen (removeEmojis [] st.content)) ∧
    (∀ r ∈ processContentFromStdin [] "hi🚀".data,
      r.Modified = true ∧ r.EmojisFound ≠ [] ∧
      r.NewSize = byteLen (removeEmojis [] "hi🚀".data))) :=
  processResult_invariant [] [("a".data, ⟨"😊".data, 0⟩)] "a".data true "hi🚀".data

/-- C10: when the initial read fails `ProcessFile` reports the error,
returns a result holding only the file path, and leaves the file system
unchanged. -/
theorem processFile_read_error (allow : List (List Char)) (fs : FS)
    (path : List Char) (dryRun : Bool) (h : fsRead fs path = none) :
    processFile allow fs path dryRun = (⟨path, [], 0, 0, false⟩, false, fs) := by
  simp [processFile, h]

/-- Witness for C10 at the empty file system. -/
theorem processFile_read_error_witness :
    fsRead [] "missing.txt".data = none ∧
    processFile [] [] "missing.txt".data true =
      (⟨"missing.txt".data, [], 0, 0, false⟩, false, []) :=
  ⟨rfl, processFile_read_error [] [] "missing.txt".data true rfl⟩

example : goClean "a/../../b".data = "../b".data := by decide

example : goClean "/a/../../b".data = "/b".data := by decide

example : goClean "foo/".data = "foo".data := by decide

example : goClean "./a//b".data = "a/b".data := by decide

example : goClean [] = ['.'] := by decide

example : goClean "/".data = "/".data := by decide

example : base "a/b/c.txt".data = "c.txt".data := by decide

example : base "/".data = "/".data := by decide

example : ext ".git/objects/ab/xyz".data = [] := by decide

example : ext "a/b.tar.gz".data = ".gz".data := by decide

example : ext "a.b/c".data = [] := by decide

example : goMatch "*.spec.js".data "unit.spec.js".data = some true := by decide

example : goMatch "*.spec.js".data "unit.test.js".data = some false := by decide

example : goMatch "a/*".data "a/b".data = some true := by decide

example : goMatch "*".data "a/b".data = some false := by decide

example : goMatch "a?c".data "abc".data = some true := by decide

example : goMatch "[a-c]x".data "bx".data = some true := by decide

example : goMatch "[^a-c]x".data "bx".data = some false := by decide

example : goMatch "a[".data "ab".data = none := by decide

example : goMatch "ab[".data "x".data = none := by decide

/-- C6, counterexample: the relative multi-segment pattern `b/c` matches
the path `a/b/c` through the code's suffix rule, but no clause of the
claim's enumeration covers it. -/
theorem matchExclude_counterexample :
    matchExclude "a/b/c".data "b/c".data = true ∧
    matchSpec "a/b/c".data "b/c".data = false := by decide

/-- C6, amended: on normalized inputs `matchExclude` is exactly the
claim's enumeration extended with the separator-delimited-suffix clause,
and a path is excluded exactly when some pattern of the list matches. -/
theorem matchExclude_amended (path pattern : List Char)
    (excludes : List (List Char))
    (hp : goClean path = path) (hq : goClean pattern = pattern) :
    matchExclude path pattern = matchSpecAmended path pattern ∧
    isExcluded excludes path = excludes.any (fun e => matchExclude path e) := by
  constructor
  · simp only [matchExclude, matchSpecAmended, hp, hq]
    cases h1 : (path == pattern) <;>
      cases h2 : isAbs pattern <;>
        cases h3 : (splitSep path).contains pattern <;>
          cases h4 : ('/' :: pattern).isSuffixOf path <;>
            cases h5 : (base path == pattern) <;>
              cases h6 : (pattern.contains '*' || pattern.contains '?') <;>
                simp [h1, h2, h3, h4, h5, h6]
  · induction excludes with
    | nil => rfl
    | cons e rest ih =>
      by_cases h : matchExclude path e = true
      · simp [isExcluded, h]
      · have h' : matchExclude path e = false := by simpa using h
        simp [isExcluded, h', ih]

/-- Witness for the amended C6 on a normalized path and pattern. -/
theorem matchExclude_amended_witness :
    goClean "x/node_modules/a.js".data = "x/node_modules/a.js".data ∧
    goClean "node_modules".data = "node_modules".data ∧
    (matchExclude "x/node_modules/a.js".data "node_modules".data =
        matchSpecAmended "x/node_modules/a.js".data "node_modules".data ∧
      isExcluded ["node_modules".data] "x/node_modules/a.js".data =
        ["node_modules".data].any
          (fun e => matchExclude "x/node_modules/a.js".data e)) :=
  ⟨by decide, by decide,
    matchExclude_amended "x/node_modules/a.js".data "node_modules".data
      ["node_modules".data] (by decide) (by decide)⟩

/-- C5, evaluated at the failing input: a walk rooted at `.` reports the
VCS-internal file as the relative path `.git/objects/ab/xyz`, which does
not contain the substring `/.git/`, so `ProcessDirectory` processes the
file and reports a result for it even with an empty exclusion list. -/
theorem processDirectory_vcs_code_bug :
    containsVCS ".git/objects/ab/xyz".data = false ∧
    (processDirectory [] []
        [⟨".git".data, true, false, []⟩,
         ⟨".git/objects".data, true, false, []⟩,
         ⟨".git/objects/ab".data, true, false, []⟩,
         ⟨".git/objects/ab/xyz".data, false, true, "hello 😀".data⟩]).map
      (fun r => r.FilePath) = [".git/objects/ab/xyz".data] := by decide

end EmojiSad

